import Mathlib

/-!
Verification of the visitor-list cleaning engine (`src/app.py`).

The engine operates on one tabular batch per invocation.  We embed it
shallowly: a row of the sheet is a `Row` of string-valued cells, and each
pandas column transform of `clean_data` becomes a Lean function on `Row`
lists.  Conventions of the embedding, fixed once here:

* Cell values are taken post-stringification: every cell holds the string
  that Python would see for it, so `astype(str)` is the identity and a
  missing cell is the empty string.
* Python's `str.lower`/`str.upper`/`str.title`/`str.strip` are modelled
  on the ASCII alphabet (`lowerChar`, `upperChar`, `titleGo`, `pyStrip`);
  code points outside A-Z and a-z are unaffected, exactly as in CPython
  for ASCII data.
* The rendered worksheet read back by the validator carries the cleaned
  batch's string values verbatim, so the validator's `str(cell).strip()`
  is modelled as `pyStrip` of the corresponding `Row` field.
* `pandas.sort_values` on several columns is a stable lexicographic sort
  (numpy lexsort); any stable sort by the same total preorder produces
  the same list, and we model it with `List.insertionSort`, which is
  stable and kernel-executable.
-/

/-- Python `str.lower` on one ASCII character: A-Z maps to a-z, everything
else is unchanged. -/
def lowerChar (c : Char) : Char :=
  if 65 ≤ c.toNat ∧ c.toNat ≤ 90 then Char.ofNat (c.toNat + 32) else c

/-- Python `str.upper` on one ASCII character: a-z maps to A-Z, everything
else is unchanged. -/
def upperChar (c : Char) : Char :=
  if 97 ≤ c.toNat ∧ c.toNat ≤ 122 then Char.ofNat (c.toNat - 32) else c

/-- Whitespace as Python's `str.strip` and the regex class `\s` see it
(ASCII subset). -/
def wsChar (c : Char) : Bool :=
  decide (c.toNat = 32 ∨ c.toNat = 9 ∨ c.toNat = 10 ∨ c.toNat = 13 ∨
    c.toNat = 11 ∨ c.toNat = 12)

/-- Cased (alphabetic ASCII) character; the notion of letter used by
Python's `str.title`. -/
def alphaChar (c : Char) : Bool :=
  decide ((65 ≤ c.toNat ∧ c.toNat ≤ 90) ∨ (97 ≤ c.toNat ∧ c.toNat ≤ 122))

/-- ASCII digit, the regex class `\d` (complement of `\D`). -/
def digitChar (c : Char) : Bool :=
  decide (48 ≤ c.toNat ∧ c.toNat ≤ 57)

/-- Word character, the regex class `\w` restricted to ASCII. -/
def wordChar (c : Char) : Bool :=
  alphaChar c || digitChar c || c.toNat == 95

/-! ### String-level models of Python's str methods -/

/-- Python `str.lower` (ASCII model). -/
def pyLower (s : String) : String := ⟨s.data.map lowerChar⟩

/-- Python `str.upper` (ASCII model). -/
def pyUpper (s : String) : String := ⟨s.data.map upperChar⟩

/-- Leading and trailing whitespace removal on a character list. -/
def stripL (l : List Char) : List Char :=
  ((l.dropWhile wsChar).reverse.dropWhile wsChar).reverse

/-- Python `str.strip`. -/
def pyStrip (s : String) : String := ⟨stripL s.data⟩

/-- One character of Python `str.title`: a cased character is uppercased
when the previous character was uncased, lowercased otherwise. -/
def titleChar (prev : Bool) (c : Char) : Char :=
  if alphaChar c then (if prev then lowerChar c else upperChar c) else c

/-- Python `str.title`, threading whether the previous character was cased. -/
def titleGo : List Char → Bool → List Char
  | [], _ => []
  | c :: cs, prev => titleChar prev c :: titleGo cs (alphaChar c)

/-- Python `str.title` on a string. -/
def pyTitle (s : String) : String := ⟨titleGo s.data false⟩

/-! ### Per-field normalizers translated from src/app.py -/

/-- Residency normalization, from `normalize_pr` (app.py lines 109-118). -/
def normalize_pr (value : String) : String :=
  let val := pyLower (pyStrip value)
  if val = "pr" ∨ val = "yes" ∨ val = "y" then "PR"
  else if val = "n" ∨ val = "no" ∨ val = "na" then "N"
  else if val = "" ∨ val = "nan" then ""
  else pyUpper val

/-- Gender normalization, from `clean_gender` (app.py lines 102-107). -/
def clean_gender (g : String) : String :=
  let v := pyUpper (pyStrip g)
  if v = "M" then "Male"
  else if v = "F" then "Female"
  else if v = "MALE" ∨ v = "FEMALE" then pyTitle v
  else v

/-- Name splitting at the first space, from `split_name` (app.py
lines 95-100): the part before the first space and everything after it. -/
def split_name (full_name : String) : String × String :=
  let s := pyStrip full_name
  if s.data.contains ' ' then
    (⟨s.data.takeWhile (fun c => !(c == ' '))⟩,
     ⟨(s.data.dropWhile (fun c => !(c == ' '))).drop 1⟩)
  else (s, "")

/-- Sort-priority class from `nationality_group` (app.py lines 81-93),
reading the nationality and PR cells of a row. -/
def nationality_group (nationality pr : String) : Nat :=
  let nat := pyLower (pyStrip nationality)
  let prv := pyLower (pyStrip pr)
  if nat = "singapore" then 1
  else if prv = "yes" ∨ prv = "y" ∨ prv = "pr" then 2
  else if nat = "malaysia" then 3
  else if nat = "india" then 4
  else 5

/-- Identification-type normalization (app.py lines 164-167): strip, then
case-insensitive `fin` becomes `FIN`, everything else is uppercased. -/
def cleanIdType (v0 : String) : String :=
  let v := pyStrip v0
  if pyLower v = "fin" then "FIN" else pyUpper v

/-- Nationality normalization (app.py lines 139-150): strip, lowercase,
exact-value synonym replacement, then title-case. -/
def cleanNationality (s : String) : String :=
  let v := pyLower (pyStrip s)
  let w := if v = "chinese" then "China"
    else if v = "singaporean" then "Singapore"
    else if v = "malaysian" then "Malaysia"
    else if v = "indian" then "India"
    else v
  pyTitle w

/-- Attempt to match the regex `PTE\s+LTD\b` at the head of the list
(the `\b` before `P` is checked by the caller); on success returns the
unconsumed remainder. -/
def matchPteLtd : List Char → Option (List Char)
  | p :: t :: e :: rest =>
    if lowerChar p = 'p' ∧ lowerChar t = 't' ∧ lowerChar e = 'e' then
      if (rest.takeWhile wsChar).isEmpty then none
      else
        match rest.dropWhile wsChar with
        | a :: b :: d :: rest2 =>
          if lowerChar a = 'l' ∧ lowerChar b = 't' ∧ lowerChar d = 'd' then
            match rest2 with
            | [] => some []
            | x :: _ => if wordChar x then none else some rest2
          else none
        | _ => none
    else none
  | _ => none

/-- Left-to-right scan of `re.sub(r"\bPTE\s+LTD\b", "Pte Ltd", s, flags=I)`
(app.py lines 132-135).  `prevWord` records whether the previous character
of the original string was a word character (for the leading `\b`); `fuel`
only bounds the recursion and is chosen large enough to never run out. -/
def pteSubGo : Nat → List Char → Bool → List Char
  | 0, l, _ => l
  | _ + 1, [], _ => []
  | fuel + 1, c :: cs, prevWord =>
    if prevWord then c :: pteSubGo fuel cs (wordChar c)
    else
      match matchPteLtd (c :: cs) with
      | some rest => "Pte Ltd".data ++ pteSubGo fuel rest true
      | none => c :: pteSubGo fuel cs (wordChar c)

/-- Company normalization (app.py lines 132-135). -/
def pteSub (s : String) : String := ⟨pteSubGo (s.data.length + 1) s.data false⟩

/-- One pass of the regex `\s*;\s*` to `;` collapse (app.py line 174):
`pending` buffers (reversed) a run of whitespace not yet emitted, and
`prevSemi` records whether the last non-whitespace character emitted was a
semicolon (whose trailing `\s*` must be swallowed). -/
def collapseGo : List Char → List Char → Bool → List Char
  | [], pending, prevSemi => if prevSemi then [] else pending.reverse
  | c :: cs, pending, prevSemi =>
    if wsChar c then collapseGo cs (c :: pending) prevSemi
    else if c == ';' then ';' :: collapseGo cs [] true
    else (if prevSemi then [] else pending.reverse) ++ (c :: collapseGo cs [] false)

/-- Vehicle-plate normalization (app.py lines 171-177): `/` and `,` become
`;`, whitespace around `;` collapses, all remaining whitespace is removed,
and a literal `nan` cell becomes empty. -/
def cleanVehicle (s : String) : String :=
  let m := s.data.map (fun c => if c == '/' || c == ',' then ';' else c)
  let collapsed := collapseGo m [] false
  let r : String := ⟨collapsed.filter (fun c => !wsChar c)⟩
  if r = "nan" then "" else r

/-- Mobile-number normalization, from `fix_mobile` (app.py lines 191-199). -/
def fix_mobile (x : String) : String :=
  let d := x.data.filter digitChar
  let d2 := if 8 < d.length then
      (if d.drop 8 = List.replicate (d.length - 8) '0' then d.take 8
       else d.drop (d.length - 8))
    else d
  if d2.length < 8 then ⟨List.replicate (8 - d2.length) '0' ++ d2⟩ else ⟨d2⟩

/-- Python `s[-n:]` (app.py line 188 uses `str[-4:]`). -/
def lastChars (n : Nat) (s : String) : String := ⟨s.data.drop (s.data.length - n)⟩

/-- Modelled from the spec: the work-permit-expiry formatting
`pd.to_datetime(col, errors="coerce").dt.strftime("%Y-%m-%d")` (app.py
line 206) is pandas library behaviour, not code of this repository.  Per
§4.1 of the spec the parser is lenient and unparsable values become absent.
We model a parser that accepts exactly the normalizer's own output shape
`YYYY-MM-DD` (which round-trips to itself) and treats every other value as
unparsable, yielding the empty string (absent). -/
def isIsoShape (s : String) : Bool :=
  match s.data with
  | [y1, y2, y3, y4, h1, m1, m2, h2, a1, a2] =>
      digitChar y1 && digitChar y2 && digitChar y3 && digitChar y4 &&
      h1 == '-' && digitChar m1 && digitChar m2 && h2 == '-' &&
      digitChar a1 && digitChar a2
  | _ => false

/-- Work-permit-expiry normalization (see `isIsoShape`). -/
def fmtDate (s : String) : String := if isIsoShape s then s else ""

/-! ### The batch: rows, ordering, and clean_data -/

/-- One row of the visitor sheet after renaming to the 13 fixed columns
(app.py lines 122-128), with string-valued cells; `sn` is the S/N column,
which `clean_data` overwrites with integers. -/
structure Row where
  sn : Nat
  vehicle : String
  company : String
  fullName : String
  firstName : String
  lastName : String
  idType : String
  ic : String
  wp : String
  nationality : String
  pr : String
  gender : String
  mobile : String
deriving DecidableEq

/-- The four-column composite sort key of app.py lines 154-157, as a plain
tuple (company, sort class, nationality, full name). -/
def keyOf (r : Row) : String × Nat × String × String :=
  (r.company, nationality_group r.nationality r.pr, r.nationality, r.fullName)

/-- The same key in lexicographic order. -/
def sortKey (r : Row) : Lex (String × Lex (Nat × Lex (String × String))) :=
  toLex (r.company, toLex (nationality_group r.nationality r.pr,
    toLex (r.nationality, r.fullName)))

/-- Row comparison used by the sort: lexicographic on the composite key,
strings compared by code point as in Python. -/
def rowLe (a b : Row) : Prop := sortKey a ≤ sortKey b

instance : DecidableRel rowLe :=
  fun a b => inferInstanceAs (Decidable (sortKey a ≤ sortKey b))

instance : IsTotal Row rowLe := ⟨fun a b => le_total (sortKey a) (sortKey b)⟩

instance : IsTrans Row rowLe := ⟨fun _ _ _ h1 h2 => le_trans h1 h2⟩

/-- The Sequencer's sort (app.py lines 154-157): `pandas.sort_values` on
several columns is numpy lexsort, a stable sort; every stable sort by the
same total preorder produces the same list, modelled by insertion sort. -/
def sortRows (rows : List Row) : List Row := List.insertionSort rowLe rows

/-- The blank-row drop (app.py line 129): `dropna(subset=cols 3..13,
how="all")` removes rows whose ten cells from full name to mobile are all
missing (missing is modelled as the empty string). -/
def dropBlank (rows : List Row) : List Row :=
  rows.filter fun r =>
    !(r.fullName == "" && r.firstName == "" && r.lastName == "" &&
      r.idType == "" && r.ic == "" && r.wp == "" && r.nationality == "" &&
      r.pr == "" && r.gender == "" && r.mobile == "")

/-- The full normalizer `clean_data` (app.py lines 120-208), steps in
source order: drop blank rows; company; nationality; stable sort and
serial renumbering; residency; id type; vehicle plates; full-name
title-casing with first/last re-derivation; the batch-level IC/work-permit
column swap when any IC cell contains a dash, then IC truncation to the
last 4 characters; mobile; gender; expiry formatting. -/
def clean_data (rows : List Row) : List Row :=
  let r1 := dropBlank rows
  let r2 := r1.map fun r => { r with company := pteSub r.company }
  let r3 := r2.map fun r => { r with nationality := cleanNationality r.nationality }
  let r4 := sortRows r3
  let r5 := r4.enum.map fun p => { p.2 with sn := p.1 + 1 }
  let r6 := r5.map fun r => { r with pr := normalize_pr r.pr }
  let r7 := r6.map fun r => { r with idType := cleanIdType r.idType }
  let r8 := r7.map fun r => { r with vehicle := cleanVehicle r.vehicle }
  let r9 := r8.map fun r =>
    let fn := pyTitle r.fullName
    { r with fullName := fn, firstName := (split_name fn).1,
             lastName := (split_name fn).2 }
  let r10 := if r9.any fun r => r.ic.data.contains '-'
    then r9.map fun r => { r with ic := r.wp, wp := r.ic }
    else r9
  let r11 := r10.map fun r => { r with ic := lastChars 4 r.ic }
  let r12 := r11.map fun r => { r with mobile := fix_mobile r.mobile }
  let r13 := r12.map fun r => { r with gender := clean_gender r.gender }
  r13.map fun r => { r with wp := fmtDate r.wp }

/-! ### The validator (generate_visitor_only, app.py lines 238-267) -/

/-- The per-row cross-field check of app.py lines 242-254: the validator
re-reads the rendered cells, re-normalizes them (strip and upper for id
type, strip and title for nationality, strip and lower for residency) and
highlights the identification, nationality and residency cells when any of
the three conditions holds. -/
def validation_bad (r : Row) : Bool :=
  let idt := pyUpper (pyStrip r.idType)
  let nat := pyTitle (pyStrip r.nationality)
  let prv := pyLower (pyStrip r.pr)
  (idt != "NRIC" && prv == "pr") ||
  (idt == "FIN" && (nat == "Singapore" || prv == "pr")) ||
  (idt == "NRIC" && !(nat == "Singapore" || prv == "pr"))

/-- Pandas `notna` on the company column of the cleaned frame (app.py
line 304): `clean_data` built that column with `astype(str)`, so every
entry is a string and `notna` is true for all of them. -/
def strNotna (_ : String) : Bool := true

/-- The visitor count written by the summary (app.py line 304):
`df["Company Full Name"].notna().sum()`. -/
def totalVisitors (rows : List Row) : Nat :=
  ((rows.map Row.company).filter strNotna).length

/-- The mobile normalization in the words of the spec (§4.1): strip all
non-digit characters; with more than 8 digits, drop the excess trailing
digits when they are all zero, otherwise keep only the last 8; left-pad
with zeros to 8. -/
def mobileNormSpec (x : String) : String :=
  let ds := x.data.filter digitChar
  let kept := if 8 < ds.length then
      (if (ds.drop 8).all (fun c => c == '0') then ds.take 8
       else ds.drop (ds.length - 8))
    else ds
  ⟨List.replicate (8 - kept.length) '0' ++ kept⟩

/-- The residency mapping as C4 must be amended: the negative literals map
to `N`, not to the empty string. -/
def normalizePrSpec (value : String) : String :=
  let val := pyLower (pyStrip value)
  if val ∈ (["pr", "yes", "y"] : List String) then "PR"
  else if val ∈ (["n", "no", "na"] : List String) then "N"
  else if val ∈ (["", "nan"] : List String) then ""
  else pyUpper val

/-- The gender mapping as C6 must be amended: unrecognized values come out
trimmed and uppercased rather than untouched. -/
def cleanGenderSpec (g : String) : String :=
  let v := pyUpper (pyStrip g)
  if v = "M" then "Male"
  else if v = "F" then "Female"
  else if v = "MALE" then "Male"
  else if v = "FEMALE" then "Female"
  else v

/-- Code point of a valid character round-trips through `Char.ofNat`. -/
theorem toNat_ofNat_valid {n : Nat} (h : n.isValidChar) : (Char.ofNat n).toNat = n := by
  rw [Char.ofNat, dif_pos h]; rfl

theorem toNat_lowerChar (c : Char) :
    (lowerChar c).toNat = if 65 ≤ c.toNat ∧ c.toNat ≤ 90 then c.toNat + 32 else c.toNat := by
  unfold lowerChar
  split
  · next h => exact toNat_ofNat_valid (Or.inl (by omega))
  · rfl

theorem toNat_upperChar (c : Char) :
    (upperChar c).toNat = if 97 ≤ c.toNat ∧ c.toNat ≤ 122 then c.toNat - 32 else c.toNat := by
  unfold upperChar
  split
  · next h => exact toNat_ofNat_valid (Or.inl (by omega))
  · rfl

theorem char_eq_iff_toNat (a b : Char) : a = b ↔ a.toNat = b.toNat := by
  constructor
  · intro h; rw [h]
  · intro h
    have := Char.ofNat_toNat a
    rw [h, Char.ofNat_toNat b] at this
    exact this.symm

theorem lowerChar_lowerChar (c : Char) : lowerChar (lowerChar c) = lowerChar c := by
  rw [char_eq_iff_toNat, toNat_lowerChar, toNat_lowerChar]
  split_ifs <;> omega

theorem lowerChar_upperChar (c : Char) : lowerChar (upperChar c) = lowerChar c := by
  rw [char_eq_iff_toNat, toNat_lowerChar, toNat_upperChar, toNat_lowerChar]
  split_ifs <;> omega

theorem upperChar_upperChar (c : Char) : upperChar (upperChar c) = upperChar c := by
  rw [char_eq_iff_toNat, toNat_upperChar, toNat_upperChar]
  split_ifs <;> omega

theorem wsChar_lowerChar (c : Char) : wsChar (lowerChar c) = wsChar c := by
  simp only [wsChar, toNat_lowerChar]
  split_ifs <;> simp only [decide_eq_decide] <;> omega

theorem wsChar_upperChar (c : Char) : wsChar (upperChar c) = wsChar c := by
  simp only [wsChar, toNat_upperChar]
  split_ifs <;> simp only [decide_eq_decide] <;> omega

theorem alphaChar_lowerChar (c : Char) : alphaChar (lowerChar c) = alphaChar c := by
  simp only [alphaChar, toNat_lowerChar]
  split_ifs <;> simp only [decide_eq_decide] <;> omega

theorem alphaChar_upperChar (c : Char) : alphaChar (upperChar c) = alphaChar c := by
  simp only [alphaChar, toNat_upperChar]
  split_ifs <;> simp only [decide_eq_decide] <;> omega

example : lowerChar 'A' = 'a' := by decide
example : upperChar 's' = 'S' := by decide
example : lowerChar '3' = '3' := by decide

theorem dropWhile_dropWhile_self (p : α → Bool) (l : List α) :
    List.dropWhile p (List.dropWhile p l) = List.dropWhile p l := by
  induction l with
  | nil => rfl
  | cons c cs ih =>
    by_cases h : p c
    · rw [List.dropWhile_cons_of_pos h, ih]
    · rw [List.dropWhile_cons_of_neg h, List.dropWhile_cons_of_neg h]

theorem dropWhile_stripL (l : List Char) :
    List.dropWhile wsChar (stripL l) = stripL l := by
  cases h : stripL l with
  | nil => rfl
  | cons c r =>
    have h1 : (List.takeWhile wsChar (List.dropWhile wsChar l).reverse) ++
        (List.dropWhile wsChar (List.dropWhile wsChar l).reverse) =
        (List.dropWhile wsChar l).reverse := List.takeWhile_append_dropWhile ..
    have h2 : List.dropWhile wsChar l =
        stripL l ++ (List.takeWhile wsChar (List.dropWhile wsChar l).reverse).reverse := by
      have := congrArg List.reverse h1
      rw [List.reverse_append, List.reverse_reverse] at this
      exact this.symm
    rw [h] at h2
    have hne : List.dropWhile wsChar l ≠ [] := by
      rw [h2]; exact List.cons_ne_nil _ _
    have hhd : (List.dropWhile wsChar l).head hne = c := by
      rw [List.head_eq_iff_head?_eq_some]
      rw [h2]; rfl
    have hnw : ¬ wsChar c = true := by
      have := List.head_dropWhile_not wsChar l hne
      rw [hhd] at this
      simp [this]
    rw [List.dropWhile_cons_of_neg hnw]

theorem stripL_stripL (l : List Char) : stripL (stripL l) = stripL l := by
  show ((List.dropWhile wsChar (stripL l)).reverse.dropWhile wsChar).reverse = stripL l
  rw [dropWhile_stripL]
  show ((((l.dropWhile wsChar).reverse.dropWhile wsChar).reverse).reverse.dropWhile
    wsChar).reverse = stripL l
  rw [List.reverse_reverse, dropWhile_dropWhile_self]
  rfl

theorem stripL_map (f : Char → Char) (hf : ∀ c, wsChar (f c) = wsChar c) (l : List Char) :
    stripL (l.map f) = (stripL l).map f := by
  have hfe : (wsChar ∘ f) = wsChar := funext hf
  unfold stripL
  rw [List.dropWhile_map, hfe, ← List.map_reverse, List.dropWhile_map, hfe, List.map_reverse]

theorem alphaChar_titleChar (b : Bool) (c : Char) :
    alphaChar (titleChar b c) = alphaChar c := by
  unfold titleChar
  split_ifs <;> simp [alphaChar_lowerChar, alphaChar_upperChar]

theorem titleChar_titleChar (b : Bool) (c : Char) :
    titleChar b (titleChar b c) = titleChar b c := by
  unfold titleChar
  split_ifs with h1 h2 h3 h3 <;>
    simp_all [alphaChar_lowerChar, alphaChar_upperChar,
      lowerChar_lowerChar, upperChar_upperChar]

theorem titleGo_titleGo (l : List Char) (b : Bool) :
    titleGo (titleGo l b) b = titleGo l b := by
  induction l generalizing b with
  | nil => rfl
  | cons c cs ih =>
    show titleChar b (titleChar b c) :: titleGo (titleGo cs (alphaChar c))
      (alphaChar (titleChar b c)) = titleChar b c :: titleGo cs (alphaChar c)
    rw [titleChar_titleChar, alphaChar_titleChar, ih]

theorem map_lowerChar_titleGo (l : List Char) (b : Bool) :
    (titleGo l b).map lowerChar = l.map lowerChar := by
  induction l generalizing b with
  | nil => rfl
  | cons c cs ih =>
    show lowerChar (titleChar b c) :: (titleGo cs (alphaChar c)).map lowerChar =
      lowerChar c :: cs.map lowerChar
    rw [ih]
    congr 1
    unfold titleChar
    split_ifs <;> simp [lowerChar_lowerChar, lowerChar_upperChar]

theorem wsChar_titleChar (b : Bool) (c : Char) : wsChar (titleChar b c) = wsChar c := by
  unfold titleChar
  split_ifs <;> simp [wsChar_lowerChar, wsChar_upperChar]

theorem pyStrip_pyStrip (s : String) : pyStrip (pyStrip s) = pyStrip s :=
  congrArg String.mk (stripL_stripL s.data)

theorem pyStrip_pyLower (s : String) : pyStrip (pyLower s) = pyLower (pyStrip s) :=
  congrArg String.mk (stripL_map lowerChar wsChar_lowerChar s.data)

theorem pyStrip_pyUpper (s : String) : pyStrip (pyUpper s) = pyUpper (pyStrip s) :=
  congrArg String.mk (stripL_map upperChar wsChar_upperChar s.data)

theorem pyLower_pyLower (s : String) : pyLower (pyLower s) = pyLower s := by
  unfold pyLower
  rw [List.map_map]
  exact congrArg String.mk (List.map_congr_left fun c _ => lowerChar_lowerChar c)

theorem pyUpper_pyUpper (s : String) : pyUpper (pyUpper s) = pyUpper s := by
  unfold pyUpper
  rw [List.map_map]
  exact congrArg String.mk (List.map_congr_left fun c _ => upperChar_upperChar c)

theorem pyLower_pyUpper (s : String) : pyLower (pyUpper s) = pyLower s := by
  unfold pyLower pyUpper
  rw [List.map_map]
  exact congrArg String.mk (List.map_congr_left fun c _ => lowerChar_upperChar c)

theorem pyLower_pyTitle (s : String) : pyLower (pyTitle s) = pyLower s :=
  congrArg String.mk (map_lowerChar_titleGo s.data false)

example : pyTitle "singapore" = "Singapore" := by decide
example : pyStrip "  CHINESE " = "CHINESE" := by decide
example : pyLower "CHINESE" = "chinese" := by decide

theorem data_mk (l : List Char) : (String.mk l).data = l := rfl

theorem fix_mobile_len (x : String) : (fix_mobile x).data.length = 8 := by
  simp only [fix_mobile, data_mk]
  split_ifs <;>
    simp_all [List.length_append, List.length_replicate, List.length_take,
      List.length_drop] <;> omega

theorem fix_mobile_digits (x : String) :
    ∀ c ∈ (fix_mobile x).data, digitChar c = true := by
  intro c hc
  simp only [fix_mobile, data_mk] at hc
  have hfil : ∀ a ∈ x.data.filter digitChar, digitChar a = true :=
    fun a ha => List.of_mem_filter ha
  split_ifs at hc with h1 h2 h3 <;>
    first
    | (rcases List.mem_append.mp hc with hrep | hkept
       · rw [List.eq_of_mem_replicate hrep]; decide
       · first
         | exact hfil c (List.take_subset _ _ hkept)
         | exact hfil c (List.drop_subset _ _ hkept)
         | exact hfil c hkept)
    | exact hfil c (List.take_subset _ _ hc)
    | exact hfil c (List.drop_subset _ _ hc)
    | exact hfil c hc

theorem all_zero_iff_replicate (l : List Char) :
    (l.all fun c => c == '0') = true ↔ l = List.replicate l.length '0' := by
  rw [List.all_eq_true, List.eq_replicate]
  constructor
  · intro h
    exact ⟨rfl, fun b hb => by have := h b hb; simpa using this⟩
  · intro h b hb
    have := h.2 b hb
    simp [this]

theorem fix_mobile_eq_spec (x : String) : fix_mobile x = mobileNormSpec x := by
  simp only [fix_mobile, mobileNormSpec]
  by_cases h1 : 8 < (x.data.filter digitChar).length
  · have hld : ((x.data.filter digitChar).drop 8).length =
        (x.data.filter digitChar).length - 8 := List.length_drop ..
    by_cases h2 : ((x.data.filter digitChar).drop 8).all (fun c => c == '0') = true
    · have h2e : (x.data.filter digitChar).drop 8 =
          List.replicate ((x.data.filter digitChar).length - 8) '0' := by
        rw [← hld]; exact (all_zero_iff_replicate _).mp h2
      rw [if_pos h1, if_pos h1, if_pos h2e, if_pos h2]
      have hlt : (List.take 8 (x.data.filter digitChar)).length = 8 := by
        rw [List.length_take]; omega
      rw [if_neg (by omega), hlt]
      simp
    · have h2e : ¬ (x.data.filter digitChar).drop 8 =
          List.replicate ((x.data.filter digitChar).length - 8) '0' := by
        rw [← hld]
        intro hcon
        exact h2 ((all_zero_iff_replicate _).mpr hcon)
      have hld2 : ((x.data.filter digitChar).drop
          ((x.data.filter digitChar).length - 8)).length = 8 := by
        rw [List.length_drop]; omega
      rw [if_pos h1, if_pos h1, if_neg h2e, if_neg h2, if_neg (by omega), hld2]
      simp
  · rw [if_neg h1, if_neg h1]
    by_cases h3 : (x.data.filter digitChar).length < 8
    · rw [if_pos h3]
    · have : (x.data.filter digitChar).length = 8 := by omega
      rw [if_neg h3, this]
      simp

/-! ### Idempotence of the per-field normalizers -/

theorem val_roundtrip (v : String) :
    pyLower (pyStrip (pyUpper (pyLower (pyStrip v)))) = pyLower (pyStrip v) := by
  rw [pyStrip_pyUpper, pyStrip_pyLower, pyStrip_pyStrip, pyLower_pyUpper, pyLower_pyLower]

theorem upperStrip_roundtrip (g : String) :
    pyUpper (pyStrip (pyUpper (pyStrip g))) = pyUpper (pyStrip g) := by
  rw [pyStrip_pyUpper, pyStrip_pyStrip, pyUpper_pyUpper]

theorem normalize_pr_idem (v : String) :
    normalize_pr (normalize_pr v) = normalize_pr v := by
  by_cases h1 : pyLower (pyStrip v) = "pr" ∨ pyLower (pyStrip v) = "yes" ∨
      pyLower (pyStrip v) = "y"
  · have e : normalize_pr v = "PR" := by simp only [normalize_pr]; rw [if_pos h1]
    rw [e]; decide
  · by_cases h2 : pyLower (pyStrip v) = "n" ∨ pyLower (pyStrip v) = "no" ∨
        pyLower (pyStrip v) = "na"
    · have e : normalize_pr v = "N" := by
        simp only [normalize_pr]; rw [if_neg h1, if_pos h2]
      rw [e]; decide
    · by_cases h3 : pyLower (pyStrip v) = "" ∨ pyLower (pyStrip v) = "nan"
      · have e : normalize_pr v = "" := by
          simp only [normalize_pr]; rw [if_neg h1, if_neg h2, if_pos h3]
        rw [e]; decide
      · have e : normalize_pr v = pyUpper (pyLower (pyStrip v)) := by
          simp only [normalize_pr]; rw [if_neg h1, if_neg h2, if_neg h3]
        rw [e]
        simp only [normalize_pr]
        rw [val_roundtrip, if_neg h1, if_neg h2, if_neg h3]

theorem clean_gender_idem (g : String) :
    clean_gender (clean_gender g) = clean_gender g := by
  by_cases h1 : pyUpper (pyStrip g) = "M"
  · have e : clean_gender g = "Male" := by simp only [clean_gender]; rw [if_pos h1]
    rw [e]; decide
  · by_cases h2 : pyUpper (pyStrip g) = "F"
    · have e : clean_gender g = "Female" := by
        simp only [clean_gender]; rw [if_neg h1, if_pos h2]
      rw [e]; decide
    · by_cases h3 : pyUpper (pyStrip g) = "MALE" ∨ pyUpper (pyStrip g) = "FEMALE"
      · have e : clean_gender g = pyTitle (pyUpper (pyStrip g)) := by
          simp only [clean_gender]; rw [if_neg h1, if_neg h2, if_pos h3]
        rcases h3 with h3 | h3 <;> rw [e, h3] <;> decide
      · have e : clean_gender g = pyUpper (pyStrip g) := by
          simp only [clean_gender]; rw [if_neg h1, if_neg h2, if_neg h3]
        rw [e]
        simp only [clean_gender]
        rw [upperStrip_roundtrip, if_neg h1, if_neg h2, if_neg h3]

theorem cleanIdType_idem (s : String) : cleanIdType (cleanIdType s) = cleanIdType s := by
  by_cases h1 : pyLower (pyStrip s) = "fin"
  · have e : cleanIdType s = "FIN" := by simp only [cleanIdType]; rw [if_pos h1]
    rw [e]; decide
  · have e : cleanIdType s = pyUpper (pyStrip s) := by
      simp only [cleanIdType]; rw [if_neg h1]
    rw [e]
    simp only [cleanIdType]
    rw [pyStrip_pyUpper, pyStrip_pyStrip, pyLower_pyUpper]
    rw [if_neg h1, pyUpper_pyUpper]

theorem cleanNationality_idem (s : String) :
    cleanNationality (cleanNationality s) = cleanNationality s := by
  by_cases h1 : pyLower (pyStrip s) = "chinese"
  · have e : cleanNationality s = "China" := by
      simp only [cleanNationality]; rw [if_pos h1]; decide
    rw [e]; decide
  · by_cases h2 : pyLower (pyStrip s) = "singaporean"
    · have e : cleanNationality s = "Singapore" := by
        simp only [cleanNationality]; rw [if_neg h1, if_pos h2]; decide
      rw [e]; decide
    · by_cases h3 : pyLower (pyStrip s) = "malaysian"
      · have e : cleanNationality s = "Malaysia" := by
          simp only [cleanNationality]; rw [if_neg h1, if_neg h2, if_pos h3]; decide
        rw [e]; decide
      · by_cases h4 : pyLower (pyStrip s) = "indian"
        · have e : cleanNationality s = "India" := by
            simp only [cleanNationality]; rw [if_neg h1, if_neg h2, if_neg h3, if_pos h4]; decide
          rw [e]; decide
        · have e : cleanNationality s = pyTitle (pyLower (pyStrip s)) := by
            simp only [cleanNationality]; rw [if_neg h1, if_neg h2, if_neg h3, if_neg h4]
          rw [e]
          simp only [cleanNationality]
          have key : pyLower (pyStrip (pyTitle (pyLower (pyStrip s)))) =
              pyLower (pyStrip s) := by
            rw [← pyStrip_pyLower, pyLower_pyTitle, pyLower_pyLower, pyStrip_pyLower,
              pyStrip_pyStrip]
          rw [key, if_neg h1, if_neg h2, if_neg h3, if_neg h4]

theorem fmtDate_idem (s : String) : fmtDate (fmtDate s) = fmtDate s := by
  by_cases h : isIsoShape s = true
  · simp only [fmtDate]; rw [if_pos h, if_pos h]
  · simp only [fmtDate]; rw [if_neg h]; decide

theorem fix_mobile_fixed (o : String) (h8 : o.data.length = 8)
    (hd : ∀ c ∈ o.data, digitChar c = true) : fix_mobile o = o := by
  have hfil : o.data.filter digitChar = o.data := List.filter_eq_self.mpr hd
  simp only [fix_mobile, hfil]
  rw [if_neg (show ¬ 8 < o.data.length by omega),
    if_neg (show ¬ o.data.length < 8 by omega)]

theorem fix_mobile_idem (x : String) : fix_mobile (fix_mobile x) = fix_mobile x :=
  fix_mobile_fixed (fix_mobile x) (fix_mobile_len x) (fix_mobile_digits x)

theorem pyTitle_pyTitle (s : String) : pyTitle (pyTitle s) = pyTitle s :=
  congrArg String.mk (titleGo_titleGo s.data false)

theorem collapseGo_mem (l : List Char) :
    ∀ (pending : List Char) (b : Bool) (c : Char),
      c ∈ collapseGo l pending b → c = ';' ∨ c ∈ pending ∨ c ∈ l := by
  induction l with
  | nil =>
    intro pending b c hc
    simp only [collapseGo] at hc
    split_ifs at hc
    · cases hc
    · exact Or.inr (Or.inl (List.mem_reverse.mp hc))
  | cons x cs ih =>
    intro pending b c hc
    by_cases hws : wsChar x = true
    · rw [show collapseGo (x :: cs) pending b = collapseGo cs (x :: pending) b from by
        simp [collapseGo, hws]] at hc
      rcases ih (x :: pending) b c hc with h | h | h
      · exact Or.inl h
      · rcases List.mem_cons.mp h with h | h
        · exact Or.inr (Or.inr (h ▸ List.mem_cons_self x cs))
        · exact Or.inr (Or.inl h)
      · exact Or.inr (Or.inr (List.mem_cons_of_mem x h))
    · by_cases hsemi : (x == ';') = true
      · rw [show collapseGo (x :: cs) pending b = ';' :: collapseGo cs [] true from by
          simp [collapseGo, hws, hsemi]] at hc
        rcases List.mem_cons.mp hc with h | h
        · exact Or.inl h
        · rcases ih [] true c h with h2 | h2 | h2
          · exact Or.inl h2
          · cases h2
          · exact Or.inr (Or.inr (List.mem_cons_of_mem x h2))
      · rw [show collapseGo (x :: cs) pending b =
            (if b then [] else pending.reverse) ++ (x :: collapseGo cs [] false) from by
          simp [collapseGo, hws, hsemi]] at hc
        rcases List.mem_append.mp hc with h | h
        · by_cases hb : b = true
          · rw [if_pos hb] at h; cases h
          · rw [if_neg hb] at h
            exact Or.inr (Or.inl (List.mem_reverse.mp h))
        · rcases List.mem_cons.mp h with h | h
          · exact Or.inr (Or.inr (h ▸ List.mem_cons_self x cs))
          · rcases ih [] false c h with h2 | h2 | h2
            · exact Or.inl h2
            · cases h2
            · exact Or.inr (Or.inr (List.mem_cons_of_mem x h2))

theorem collapseGo_clean (l : List Char) :
    ∀ b : Bool, (∀ c ∈ l, wsChar c = false) → collapseGo l [] b = l := by
  induction l with
  | nil => intro b _; simp [collapseGo]
  | cons x cs ih =>
    intro b h
    have hx : wsChar x = false := h x (List.mem_cons_self x cs)
    have hcs : ∀ c ∈ cs, wsChar c = false := fun c hc => h c (List.mem_cons_of_mem x hc)
    simp only [collapseGo]
    rw [if_neg (by simp [hx])]
    by_cases hsemi : (x == ';') = true
    · rw [if_pos hsemi, ih true hcs]
      have : x = ';' := by simpa using hsemi
      rw [this]
    · rw [if_neg hsemi, ih false hcs]
      simp

theorem cleanVehicle_fixed (t : String)
    (ht : ∀ c ∈ t.data, wsChar c = false ∧ c ≠ '/' ∧ c ≠ ',')
    (hnan : t ≠ "nan") : cleanVehicle t = t := by
  have hmap : t.data.map (fun c => if c == '/' || c == ',' then ';' else c) = t.data := by
    have : t.data.map (fun c => if c == '/' || c == ',' then ';' else c) =
        t.data.map id := by
      apply List.map_congr_left
      intro a ha
      have h := ht a ha
      simp [h.2.1, h.2.2]
    rw [this, List.map_id]
  have hfix : cleanVehicle t = (if t = "nan" then "" else t) := by
    simp only [cleanVehicle, hmap]
    rw [collapseGo_clean t.data false (fun c hc => (ht c hc).1)]
    rw [List.filter_eq_self.mpr (fun c hc => by simp [(ht c hc).1])]
  rw [hfix, if_neg hnan]

theorem cleanVehicle_idem (s : String) :
    cleanVehicle (cleanVehicle s) = cleanVehicle s := by
  by_cases hnan : (⟨(collapseGo (s.data.map fun c =>
      if c == '/' || c == ',' then ';' else c) [] false).filter
      fun c => !wsChar c⟩ : String) = "nan"
  · have e : cleanVehicle s = "" := by
      simp only [cleanVehicle]
      rw [if_pos hnan]
    rw [e]; decide
  · have e : cleanVehicle s = ⟨(collapseGo (s.data.map fun c =>
        if c == '/' || c == ',' then ';' else c) [] false).filter
        fun c => !wsChar c⟩ := by
      simp only [cleanVehicle]
      rw [if_neg hnan]
    rw [e]
    apply cleanVehicle_fixed
    · intro c hc
      rw [data_mk] at hc
      refine ⟨?_, ?_⟩
      · have := List.of_mem_filter hc
        simpa using this
      · have hc2 := (List.mem_filter.mp hc).1
        rcases collapseGo_mem _ _ _ _ hc2 with h | h | h
        · rw [h]; exact ⟨by decide, by decide⟩
        · cases h
        · rcases List.mem_map.mp h with ⟨a, _, rfl⟩
          by_cases hsc : (a == '/' || a == ',') = true
          · rw [if_pos hsc]; exact ⟨by decide, by decide⟩
          · rw [if_neg hsc]
            simp only [Bool.or_eq_true, beq_iff_eq] at hsc
            push_neg at hsc
            exact ⟨hsc.1, hsc.2⟩
    · exact hnan

/-! ### Properties of the duplicate-name scan -/

theorem sortKey_eq_of_keyOf_eq {a b : Row} (h : keyOf a = keyOf b) :
    sortKey a = sortKey b := by
  simp only [keyOf, Prod.mk.injEq] at h
  have hg : nationality_group a.nationality a.pr =
      nationality_group b.nationality b.pr := h.2.1
  simp only [sortKey]
  rw [hg, h.1, h.2.2.1, h.2.2.2]

theorem rowLe_of_keyOf_eq {a b : Row} (h : keyOf a = keyOf b) : rowLe a b := by
  unfold rowLe
  rw [sortKey_eq_of_keyOf_eq h]

theorem sortRows_sortRows (l : List Row) : sortRows (sortRows l) = sortRows l :=
  (List.sorted_insertionSort rowLe l).insertionSort_eq

theorem sortRows_stable (l : List Row) (k : String × Nat × String × String) :
    (sortRows l).filter (fun r => decide (keyOf r = k)) =
      l.filter (fun r => decide (keyOf r = k)) := by
  have hsub1 : List.Sublist (l.filter fun r => decide (keyOf r = k)) l :=
    List.filter_sublist l
  have hpair : (l.filter (fun r => decide (keyOf r = k))).Pairwise rowLe := by
    apply List.pairwise_of_forall_mem_list
    intro a ha b hb
    have hka : keyOf a = k := by simpa using List.of_mem_filter ha
    have hkb : keyOf b = k := by simpa using List.of_mem_filter hb
    exact rowLe_of_keyOf_eq (hka.trans hkb.symm)
  have hsub2 : List.Sublist (l.filter fun r => decide (keyOf r = k)) (sortRows l) :=
    List.sublist_insertionSort hpair hsub1
  have hsub3 : List.Sublist (l.filter fun r => decide (keyOf r = k))
      ((sortRows l).filter fun r => decide (keyOf r = k)) := by
    have h4 := List.Sublist.filter (fun r => decide (keyOf r = k)) hsub2
    rwa [List.filter_filter,
      show (fun a => decide (keyOf a = k) && decide (keyOf a = k)) =
        (fun r => decide (keyOf r = k)) from funext fun a => Bool.and_self _] at h4
  have hperm : List.Perm ((sortRows l).filter fun r => decide (keyOf r = k))
      (l.filter fun r => decide (keyOf r = k)) :=
    (List.perm_insertionSort rowLe l).filter _
  exact (hsub3.eq_of_length hperm.length_eq.symm).symm

/-! ### Idempotence of the company-name normalizer and the IC truncation -/

theorem pteSubGo_zero (l : List Char) (b : Bool) : pteSubGo 0 l b = l := rfl

theorem pteSubGo_nil (f : Nat) (b : Bool) : pteSubGo f [] b = [] := by
  cases f <;> rfl

theorem pteSubGo_succ_true (f : Nat) (c : Char) (cs : List Char) :
    pteSubGo (f + 1) (c :: cs) true = c :: pteSubGo f cs (wordChar c) := by
  simp [pteSubGo]

theorem pteSubGo_succ_false_none (f : Nat) (c : Char) (cs : List Char)
    (hm : matchPteLtd (c :: cs) = none) :
    pteSubGo (f + 1) (c :: cs) false = c :: pteSubGo f cs (wordChar c) := by
  simp [pteSubGo, hm]

theorem pteSubGo_succ_false_some (f : Nat) (c : Char) (cs rest : List Char)
    (hm : matchPteLtd (c :: cs) = some rest) :
    pteSubGo (f + 1) (c :: cs) false = "Pte Ltd".data ++ pteSubGo f rest true := by
  simp [pteSubGo, hm]

theorem pteSubGo_true_cons (f : Nat) (x : Char) (xs : List Char) :
    ∃ ys, pteSubGo f (x :: xs) true = x :: ys := by
  cases f with
  | zero => exact ⟨xs, rfl⟩
  | succ f2 => exact ⟨pteSubGo f2 xs (wordChar x), pteSubGo_succ_true ..⟩

theorem matchPteLtd_none_of_head (x : Char) (l : List Char)
    (hx : ¬ lowerChar x = 'p') : matchPteLtd (x :: l) = none := by
  cases l with
  | nil => rfl
  | cons a l2 =>
    cases l2 with
    | nil => rfl
    | cons b l3 =>
      simp only [matchPteLtd]
      rw [if_neg fun hcon => hx hcon.1]

theorem lowerChar_ne_p_of_ws (x : Char) (hx : wsChar x = true) :
    ¬ lowerChar x = 'p' := by
  intro hcon
  have h1 := congrArg Char.toNat hcon
  rw [toNat_lowerChar, show ('p' : Char).toNat = 112 from rfl] at h1
  simp only [wsChar, decide_eq_true_eq] at hx
  split_ifs at h1 <;> omega

theorem wsChar_false_of_lowerChar_l (x : Char) (hx : lowerChar x = 'l') :
    wsChar x = false := by
  have h1 := congrArg Char.toNat hx
  rw [toNat_lowerChar, show ('l' : Char).toNat = 108 from rfl] at h1
  simp only [wsChar, decide_eq_false_iff_not]
  split_ifs at h1 <;> omega

theorem wordChar_of_lowerChar_d (x : Char) (hx : lowerChar x = 'd') :
    wordChar x = true := by
  have h1 := congrArg Char.toNat hx
  rw [toNat_lowerChar, show ('d' : Char).toNat = 100 from rfl] at h1
  have halpha : (65 ≤ x.toNat ∧ x.toNat ≤ 90) ∨ (97 ≤ x.toNat ∧ x.toNat ≤ 122) := by
    split_ifs at h1 <;> omega
  simp [wordChar, alphaChar, halpha]

theorem match_structure {c : Char} {u r : List Char}
    (h : matchPteLtd (c :: u) = some r) :
    lowerChar c = 'p' ∧ ∃ tc ec ws1 lc tc2 dc,
      u = tc :: ec :: (ws1 ++ lc :: tc2 :: dc :: r) ∧
      lowerChar tc = 't' ∧ lowerChar ec = 'e' ∧
      ws1 ≠ [] ∧ (∀ ch ∈ ws1, wsChar ch = true) ∧
      lowerChar lc = 'l' ∧ lowerChar tc2 = 't' ∧ lowerChar dc = 'd' ∧
      (r = [] ∨ ∃ x xs, r = x :: xs ∧ wordChar x = false) := by
  cases u with
  | nil => exact absurd h (by simp [matchPteLtd])
  | cons tc u2 =>
  cases u2 with
  | nil => exact absurd h (by simp [matchPteLtd])
  | cons ec rest =>
  simp only [matchPteLtd] at h
  by_cases h1 : lowerChar c = 'p' ∧ lowerChar tc = 't' ∧ lowerChar ec = 'e'
  case neg => rw [if_neg h1] at h; exact absurd h (by simp)
  rw [if_pos h1] at h
  by_cases h2 : (rest.takeWhile wsChar).isEmpty = true
  case pos => rw [if_pos h2] at h; exact absurd h (by simp)
  rw [if_neg h2] at h
  have hsplit : rest.takeWhile wsChar ++ rest.dropWhile wsChar = rest :=
    List.takeWhile_append_dropWhile ..
  have hws1ne : rest.takeWhile wsChar ≠ [] := by
    intro hcon; rw [hcon] at h2; exact h2 rfl
  have hws1 : ∀ ch ∈ rest.takeWhile wsChar, wsChar ch = true :=
    fun ch hch => List.all_eq_true.mp List.all_takeWhile ch hch
  cases hd : rest.dropWhile wsChar with
  | nil => rw [hd] at h; exact absurd h (by simp)
  | cons lc d2 =>
  cases d2 with
  | nil => rw [hd] at h; exact absurd h (by simp)
  | cons tc2 d3 =>
  cases d3 with
  | nil => rw [hd] at h; exact absurd h (by simp)
  | cons dc rest2 =>
  rw [hd] at h
  simp only at h
  by_cases h3 : lowerChar lc = 'l' ∧ lowerChar tc2 = 't' ∧ lowerChar dc = 'd'
  case neg => rw [if_neg h3] at h; exact absurd h (by simp)
  rw [if_pos h3] at h
  cases rest2 with
  | nil =>
    simp only at h
    injection h with hr
    refine ⟨h1.1, tc, ec, rest.takeWhile wsChar, lc, tc2, dc, ?_, h1.2.1, h1.2.2,
      hws1ne, hws1, h3.1, h3.2.1, h3.2.2, Or.inl hr.symm⟩
    rw [← hr]
    conv_lhs => rw [← hsplit, hd]
  | cons x xs =>
    simp only at h
    by_cases h4 : wordChar x = true
    case pos => rw [if_pos h4] at h; exact absurd h (by simp)
    rw [if_neg h4] at h
    injection h with hr
    refine ⟨h1.1, tc, ec, rest.takeWhile wsChar, lc, tc2, dc, ?_, h1.2.1, h1.2.2,
      hws1ne, hws1, h3.1, h3.2.1, h3.2.2,
      Or.inr ⟨x, xs, hr.symm, by simpa using h4⟩⟩
    rw [← hr]
    conv_lhs => rw [← hsplit, hd]


theorem match_construct (c tc ec lc tc2 dc : Char) (ws1 r : List Char)
    (hc : lowerChar c = 'p') (ht : lowerChar tc = 't') (he : lowerChar ec = 'e')
    (hws1ne : ws1 ≠ []) (hws1 : ∀ ch ∈ ws1, wsChar ch = true)
    (hl : lowerChar lc = 'l') (ht2 : lowerChar tc2 = 't') (hdc : lowerChar dc = 'd')
    (hb : r = [] ∨ ∃ x xs, r = x :: xs ∧ wordChar x = false) :
    matchPteLtd (c :: tc :: ec :: (ws1 ++ lc :: tc2 :: dc :: r)) = some r := by
  simp only [matchPteLtd]
  rw [if_pos ⟨hc, ht, he⟩]
  have hlcws : wsChar lc = false := wsChar_false_of_lowerChar_l lc hl
  have htake : (ws1 ++ lc :: tc2 :: dc :: r).takeWhile wsChar = ws1 := by
    rw [List.takeWhile_append_of_pos hws1,
      List.takeWhile_cons_of_neg (by simp [hlcws]), List.append_nil]
  have hdrop : (ws1 ++ lc :: tc2 :: dc :: r).dropWhile wsChar = lc :: tc2 :: dc :: r := by
    rw [List.dropWhile_append_of_pos hws1]
    exact List.dropWhile_cons_of_neg (by simp [hlcws])
  rw [htake, hdrop]
  rw [if_neg (by cases ws1 with
    | nil => exact absurd rfl hws1ne
    | cons a b => simp)]
  simp only
  rw [if_pos ⟨hl, ht2, hdc⟩]
  rcases hb with h0 | ⟨x, xs, hxr, hxw⟩
  · rw [h0]
  · rw [hxr]
    simp only
    rw [if_neg (by simp [hxw])]

theorem match_length {v r : List Char} (h : matchPteLtd v = some r) :
    r.length + 7 ≤ v.length := by
  cases v with
  | nil => exact absurd h (by simp [matchPteLtd])
  | cons c u =>
    obtain ⟨-, tc, ec, ws1, lc, tc2, dc, hueq, -, -, hws1ne, -, -, -, -, -⟩ :=
      match_structure h
    rw [hueq]
    have hws1len : 1 ≤ ws1.length := by
      cases ws1 with
      | nil => exact absurd rfl hws1ne
      | cons a b => simp
    simp [List.length_append]
    omega

theorem foldl_lastState (xs : List Char) (b : Bool) (x : Char) :
    (xs ++ [x]).foldl (fun _st ch => wordChar ch) b = wordChar x := by
  rw [List.foldl_append]
  rfl

theorem pteSubGo_cons_inv (f2 : Nat) (c0 y : Char) (cs0 R : List Char) (b : Bool)
    (hy : ¬ lowerChar y = 'p')
    (heq : pteSubGo (f2 + 1) (c0 :: cs0) b = y :: R) :
    c0 = y ∧ pteSubGo f2 cs0 (wordChar c0) = R := by
  cases b with
  | true =>
    rw [pteSubGo_succ_true] at heq
    injection heq with h1 h2
    exact ⟨h1, h2⟩
  | false =>
    cases hm : matchPteLtd (c0 :: cs0) with
    | none =>
      rw [pteSubGo_succ_false_none f2 c0 cs0 hm] at heq
      injection heq with h1 h2
      exact ⟨h1, h2⟩
    | some r =>
      exfalso
      rw [pteSubGo_succ_false_some f2 c0 cs0 r hm] at heq
      have hhead : ('P' : Char) = y := by
        have := congrArg List.head? heq
        simpa using this
      exact hy (by rw [← hhead]; decide)

theorem pteSubGo_decompose (w : List Char) :
    ∀ (f : Nat) (cs Z : List Char) (b : Bool),
      (∀ ch ∈ w, ¬ lowerChar ch = 'p') →
      pteSubGo f cs b = w ++ Z →
      ∃ cs2, cs = w ++ cs2 ∧
        Z = pteSubGo (f - w.length) cs2
          (w.foldl (fun _st ch => wordChar ch) b) := by
  induction w with
  | nil =>
    intro f cs Z b _ heq
    exact ⟨cs, by simp, by simpa using heq.symm⟩
  | cons y w2 ih =>
    intro f cs Z b hw heq
    have hy : ¬ lowerChar y = 'p' := hw y (List.mem_cons_self _ _)
    have hw2 : ∀ ch ∈ w2, ¬ lowerChar ch = 'p' :=
      fun ch hc => hw ch (List.mem_cons_of_mem _ hc)
    cases f with
    | zero =>
      rw [pteSubGo_zero] at heq
      refine ⟨Z, by rw [heq], ?_⟩
      rw [Nat.zero_sub, pteSubGo_zero]
    | succ f2 =>
      cases cs with
      | nil =>
        rw [pteSubGo_nil] at heq
        exact absurd heq (by simp)
      | cons c0 cs0 =>
        have heq2 : pteSubGo (f2 + 1) (c0 :: cs0) b = y :: (w2 ++ Z) := by
          rw [heq, List.cons_append]
        obtain ⟨hc0, hrest⟩ := pteSubGo_cons_inv f2 c0 y cs0 (w2 ++ Z) b hy heq2
        obtain ⟨cs2, hcs, hZ⟩ := ih f2 cs0 Z (wordChar c0) hw2 hrest
        refine ⟨cs2, ?_, ?_⟩
        · rw [hcs, hc0, List.cons_append]
        · rw [List.length_cons, Nat.succ_sub_succ, List.foldl_cons]
          rw [← hc0]
          exact hZ

theorem matchPteLtd_none_preserved (c : Char) (cs : List Char) (f : Nat)
    (hm : matchPteLtd (c :: cs) = none) :
    matchPteLtd (c :: pteSubGo f cs (wordChar c)) = none := by
  cases hsome : matchPteLtd (c :: pteSubGo f cs (wordChar c)) with
  | none => rfl
  | some r2 =>
    exfalso
    obtain ⟨hp, tc, ec, ws1, lc, tc2, dc, hueq, ht, he, hws1ne, hws1, hl, ht2, hdc, hb⟩ :=
      match_structure hsome
    have hw_eq : pteSubGo f cs (wordChar c) =
        (tc :: ec :: (ws1 ++ [lc, tc2, dc])) ++ r2 := by
      rw [hueq]
      simp
    have hwnp : ∀ ch ∈ tc :: ec :: (ws1 ++ [lc, tc2, dc]), ¬ lowerChar ch = 'p' := by
      intro ch hch
      rcases List.mem_cons.mp hch with h | hch2
      · rw [h, ht]; decide
      rcases List.mem_cons.mp hch2 with h | hch3
      · rw [h, he]; decide
      rcases List.mem_append.mp hch3 with h | h
      · exact lowerChar_ne_p_of_ws ch (hws1 ch h)
      rcases List.mem_cons.mp h with h4 | h5
      · rw [h4, hl]; decide
      rcases List.mem_cons.mp h5 with h4 | h6
      · rw [h4, ht2]; decide
      rcases List.mem_cons.mp h6 with h4 | h7
      · rw [h4, hdc]; decide
      cases h7
    obtain ⟨cs2, hcs, hr2⟩ := pteSubGo_decompose _ f cs r2 (wordChar c) hwnp hw_eq
    have hstate : (tc :: ec :: (ws1 ++ [lc, tc2, dc])).foldl
        (fun _st ch => wordChar ch) (wordChar c) = wordChar dc := by
      rw [show tc :: ec :: (ws1 ++ [lc, tc2, dc]) =
        (tc :: ec :: (ws1 ++ [lc, tc2])) ++ [dc] by simp]
      exact foldl_lastState ..
    rw [hstate, wordChar_of_lowerChar_d dc hdc] at hr2
    set f3 := f - (tc :: ec :: (ws1 ++ [lc, tc2, dc])).length with hf3
    have hbcs : cs2 = [] ∨ ∃ x xs, cs2 = x :: xs ∧ wordChar x = false := by
      rcases hb with hb0 | ⟨x, xs, hxr, hxw⟩
      · left
        rw [hb0] at hr2
        cases cs2 with
        | nil => rfl
        | cons z zs =>
          obtain ⟨ys, hys⟩ := pteSubGo_true_cons f3 z zs
          rw [hys] at hr2
          simp at hr2
      · right
        cases cs2 with
        | nil =>
          rw [pteSubGo_nil, hxr] at hr2
          simp at hr2
        | cons z zs =>
          obtain ⟨ys, hys⟩ := pteSubGo_true_cons f3 z zs
          rw [hys, hxr] at hr2
          injection hr2 with hxz _
          exact ⟨z, zs, rfl, by rw [← hxz]; exact hxw⟩
    have hfinal : matchPteLtd (c :: cs) = some cs2 := by
      have hcs2 : cs = tc :: ec :: (ws1 ++ lc :: tc2 :: dc :: cs2) := by
        rw [hcs]
        simp
      rw [hcs2]
      exact match_construct c tc ec lc tc2 dc ws1 cs2 hp ht he hws1ne hws1 hl ht2 hdc hbcs
    rw [hfinal] at hm
    exact Option.noConfusion hm

theorem pteSubGo_pteSubGo (f1 : Nat) :
    ∀ (l : List Char) (b : Bool) (f2 : Nat),
      l.length < f1 → (pteSubGo f1 l b).length < f2 →
      pteSubGo f2 (pteSubGo f1 l b) b = pteSubGo f1 l b := by
  induction f1 with
  | zero => intro l b f2 h _; omega
  | succ f ih =>
    intro l b f2 hl hf2
    cases l with
    | nil =>
      rw [pteSubGo_nil]
      exact pteSubGo_nil f2 b
    | cons c cs =>
      have hcl : cs.length < f := by
        simp only [List.length_cons] at hl
        omega
      cases b with
      | true =>
        rw [pteSubGo_succ_true] at hf2 ⊢
        cases f2 with
        | zero => exact absurd hf2 (Nat.not_lt_zero _)
        | succ g =>
          rw [pteSubGo_succ_true]
          congr 1
          apply ih cs (wordChar c) g hcl
          simp only [List.length_cons] at hf2
          omega
      | false =>
        cases hm : matchPteLtd (c :: cs) with
        | none =>
          rw [pteSubGo_succ_false_none f c cs hm] at hf2 ⊢
          cases f2 with
          | zero => exact absurd hf2 (Nat.not_lt_zero _)
          | succ g =>
            rw [pteSubGo_succ_false_none g c (pteSubGo f cs (wordChar c))
              (matchPteLtd_none_preserved c cs f hm)]
            congr 1
            apply ih cs (wordChar c) g hcl
            simp only [List.length_cons] at hf2
            omega
        | some rest =>
          rw [pteSubGo_succ_false_some f c cs rest hm] at hf2 ⊢
          have hlen := match_length hm
          have hrl : rest.length < f := by
            simp only [List.length_cons] at hl hlen
            omega
          have hb : pteSubGo f rest true = [] ∨
              ∃ x xs, pteSubGo f rest true = x :: xs ∧ wordChar x = false := by
            obtain ⟨-, tc, ec, ws1, lc, tc2, dc, -, -, -, -, -, -, -, -, hbr⟩ :=
              match_structure hm
            rcases hbr with h0 | ⟨x, xs, hxr, hxw⟩
            · left
              rw [h0, pteSubGo_nil]
            · right
              rw [hxr]
              obtain ⟨ys, hys⟩ := pteSubGo_true_cons f x xs
              exact ⟨x, ys, hys, hxw⟩
          have hmo : matchPteLtd ("Pte Ltd".data ++ pteSubGo f rest true) =
              some (pteSubGo f rest true) := by
            rw [show "Pte Ltd".data ++ pteSubGo f rest true =
              'P' :: 't' :: 'e' :: ([' '] ++ 'L' :: 't' :: 'd' ::
                pteSubGo f rest true) from rfl]
            exact match_construct 'P' 't' 'e' 'L' 't' 'd' [' '] _
              (by decide) (by decide) (by decide) (by simp)
              (by intro ch hch; rw [List.mem_singleton.mp hch]; decide)
              (by decide) (by decide) (by decide) hb
          cases f2 with
          | zero => exact absurd hf2 (Nat.not_lt_zero _)
          | succ g =>
            have hTlen : (pteSubGo f rest true).length < g := by
              have h7 : ("Pte Ltd".data).length = 7 := rfl
              rw [List.length_append, h7] at hf2
              omega
            calc pteSubGo (g + 1) ("Pte Ltd".data ++ pteSubGo f rest true) false
                = "Pte Ltd".data ++ pteSubGo g (pteSubGo f rest true) true :=
                  pteSubGo_succ_false_some g 'P'
                    ("te Ltd".data ++ pteSubGo f rest true) (pteSubGo f rest true) hmo
              _ = "Pte Ltd".data ++ pteSubGo f rest true := by
                  rw [ih rest true g hrl hTlen]

theorem pteSub_pteSub (s : String) : pteSub (pteSub s) = pteSub s :=
  congrArg String.mk
    (pteSubGo_pteSubGo (s.data.length + 1) s.data false
      ((pteSubGo (s.data.length + 1) s.data false).length + 1)
      (Nat.lt_succ_self _) (Nat.lt_succ_self _))

theorem lastChars_lastChars (n : Nat) (s : String) :
    lastChars n (lastChars n s) = lastChars n s := by
  simp only [lastChars, data_mk]
  rw [List.length_drop]
  rw [show s.data.length - (s.data.length - n) - n = 0 by omega, List.drop_zero]


/-! ### The claims -/

/-- C1, counterexample: the code has no standalone R1 rule.  A record whose
normalized nationality is Singapore and normalized residency is PR is NOT
flagged on its identification/nationality/residency cells when its id type
is NRIC: none of the three conditions of app.py lines 249-251 fires. -/
theorem c1_no_r1_rule_cex :
    pyTitle (pyStrip "Singapore") = "Singapore" ∧
    pyLower (pyStrip "PR") = "pr" ∧
    validation_bad ⟨1, "", "Beta Works", "Ann Lee", "Ann", "Lee", "NRIC",
      "123A", "", "Singapore", "PR", "Female", "90000001"⟩ = false := by decide

/-- C1, amended: a record with normalized nationality Singapore and
normalized residency PR is flagged on the identification/nationality/
residency cells provided its normalized id type is not NRIC (the flag then
comes from the `idt != "NRIC" and pr == "pr"` condition); with id type
NRIC such a record is not flagged. -/
theorem c1_singapore_pr_flagged (r : Row)
    (hnat : pyTitle (pyStrip r.nationality) = "Singapore")
    (hpr : pyLower (pyStrip r.pr) = "pr")
    (hid : pyUpper (pyStrip r.idType) ≠ "NRIC") :
    validation_bad r = true := by
  simp only [validation_bad]
  rw [hpr]
  simp [bne_iff_ne, hid]

/-- Witness for C1's amended theorem at a concrete record. -/
theorem c1_singapore_pr_flagged_witness :
    pyTitle (pyStrip "Singapore") = "Singapore" ∧
    pyLower (pyStrip "pr") = "pr" ∧
    pyUpper (pyStrip "Passport") ≠ "NRIC" ∧
    validation_bad ⟨1, "", "Delta", "Joe", "Joe", "", "Passport", "987Z", "",
      "Singapore", "pr", "Male", "80000000"⟩ = true :=
  ⟨by decide, by decide, by decide,
    c1_singapore_pr_flagged
      ⟨1, "", "Delta", "Joe", "Joe", "", "Passport", "987Z", "",
        "Singapore", "pr", "Male", "80000000"⟩
      (by decide) (by decide) (by decide)⟩

/-- C3, counterexample: the summary count of app.py line 304 is
`notna().sum()` on an all-string column, so a cleaned batch whose single
record has an empty company name is counted as 1 visitor, while the number
of records with non-empty company name is 0. -/
theorem c3_visitor_count_cex :
    totalVisitors (clean_data [⟨1, "", "", "Bob", "", "", "NRIC", "123A", "",
      "Singapore", "", "M", "91234567"⟩]) = 1 ∧
    ((clean_data [⟨1, "", "", "Bob", "", "", "NRIC", "123A", "",
      "Singapore", "", "M", "91234567"⟩]).filter
        fun r => !(r.company == "")).length = 0 := by decide

/-- C3, amended: the visitor count emitted by the summary equals the total
number of records in the cleaned batch; `notna` cannot distinguish empty
from non-empty company names because `clean_data` stringified the column. -/
theorem c3_visitor_count_is_length (rows : List Row) :
    totalVisitors rows = rows.length := by
  show ((rows.map Row.company).filter fun _ => true).length = rows.length
  rw [List.filter_true, List.length_map]

/-- C4, counterexample: `normalize_pr` maps the negative literal `no` to
`N`, not to the empty string as the claim states. -/
theorem c4_negative_literal_cex :
    normalize_pr "no" = "N" ∧ ("N" : String) ≠ "" := by decide

/-- C4, amended: residency normalization trims and lowercases; a result in
pr/yes/y maps to `PR`; a result in n/no/na maps to `N`; an empty or `nan`
result maps to the empty string; any other result is uppercased (which is
the identity on non-alphabetic text). -/
theorem c4_normalize_pr_spec (v : String) : normalize_pr v = normalizePrSpec v := by
  simp only [normalize_pr, normalizePrSpec, List.mem_cons, List.mem_singleton,
    List.not_mem_nil, or_false]

/-- C5: the Sequencer's sort is stable and idempotent: sorting twice gives
the list sorted once, and the records carrying any fixed value of the
composite key (companyName, sortClass, nationality, fullName) appear in
the sorted batch in their original relative order. -/
theorem c5_sort_stable_idempotent (l : List Row) :
    sortRows (sortRows l) = sortRows l ∧
    ∀ k : String × Nat × String × String,
      (sortRows l).filter (fun r => decide (keyOf r = k)) =
        l.filter (fun r => decide (keyOf r = k)) :=
  ⟨sortRows_sortRows l, fun k => sortRows_stable l k⟩

/-- C6, counterexample: an unrecognized gender value is not passed through
unchanged; `clean_gender` returns its trimmed uppercased form. -/
theorem c6_passthrough_cex :
    clean_gender "ab" = "AB" ∧ ("AB" : String) ≠ "ab" := by decide

/-- C6, amended: gender normalization trims and uppercases; `M` maps to
Male, `F` to Female, `MALE`/`FEMALE` to their title-cased forms Male and
Female, and any other input value maps to its trimmed uppercased form
(not the original input). -/
theorem c6_clean_gender_spec (g : String) : clean_gender g = cleanGenderSpec g := by
  by_cases h1 : pyUpper (pyStrip g) = "M"
  · simp only [clean_gender, cleanGenderSpec]
    rw [if_pos h1, if_pos h1]
  · by_cases h2 : pyUpper (pyStrip g) = "F"
    · simp only [clean_gender, cleanGenderSpec]
      rw [if_neg h1, if_neg h1, if_pos h2, if_pos h2]
    · by_cases h3 : pyUpper (pyStrip g) = "MALE"
      · simp only [clean_gender, cleanGenderSpec]
        rw [if_neg h1, if_neg h1, if_neg h2, if_neg h2, if_pos (Or.inl h3),
          if_pos h3, h3]
        decide
      · by_cases h4 : pyUpper (pyStrip g) = "FEMALE"
        · simp only [clean_gender, cleanGenderSpec]
          rw [if_neg h1, if_neg h1, if_neg h2, if_neg h2, if_pos (Or.inr h4),
            if_neg h3, if_pos h4, h4]
          decide
        · simp only [clean_gender, cleanGenderSpec]
          rw [if_neg h1, if_neg h1, if_neg h2, if_neg h2,
            if_neg (by rintro (h | h) <;> [exact h3 h; exact h4 h]),
            if_neg h3, if_neg h4]

/-- C8: the mobile-number normalization agrees with the spec's description
(strip non-digits; drop all-zero excess trailing digits, otherwise keep the
last 8; left-pad with zeros), and its result is always exactly 8 digits. -/
theorem c8_mobile_normalization (x : String) :
    fix_mobile x = mobileNormSpec x ∧ (fix_mobile x).data.length = 8 ∧
    ∀ c ∈ (fix_mobile x).data, digitChar c = true :=
  ⟨fix_mobile_eq_spec x, fix_mobile_len x, fix_mobile_digits x⟩

/-- C9, counterexample: `clean_data` is not idempotent.  A batch whose IC
column contains a dash triggers the IC/work-permit swap; the swapped IC is
then the last 4 characters of the old expiry string and can itself contain
a dash (here `1-31` from `2024-01-31`), so a second run swaps again and
produces a different batch. -/
theorem c9_clean_data_not_idempotent_cex :
    clean_data (clean_data [⟨1, "", "Acme", "Bob", "", "", "NRIC", "A-1",
      "2024-01-31", "Singapore", "", "M", "91234567"⟩]) ≠
    clean_data [⟨1, "", "Acme", "Bob", "", "", "NRIC", "A-1",
      "2024-01-31", "Singapore", "", "M", "91234567"⟩] := by decide

/-- C9, amended: every per-field normalizer — company name (the
`PTE LTD` → `Pte Ltd` substitution), residency, gender, id type,
nationality, vehicle plates, full-name title-casing, identifier last-4
truncation, mobile number and expiry formatting — is idempotent on its
own output; the whole-batch `clean_data` is not idempotent, because the
identifier/work-permit column swap heuristic can retrigger on its own
output (see the counterexample). -/
theorem c9_per_field_idempotent :
    (∀ s, pteSub (pteSub s) = pteSub s) ∧
    (∀ v, normalize_pr (normalize_pr v) = normalize_pr v) ∧
    (∀ g, clean_gender (clean_gender g) = clean_gender g) ∧
    (∀ s, cleanIdType (cleanIdType s) = cleanIdType s) ∧
    (∀ s, cleanNationality (cleanNationality s) = cleanNationality s) ∧
    (∀ s, cleanVehicle (cleanVehicle s) = cleanVehicle s) ∧
    (∀ s, pyTitle (pyTitle s) = pyTitle s) ∧
    (∀ s, lastChars 4 (lastChars 4 s) = lastChars 4 s) ∧
    (∀ x, fix_mobile (fix_mobile x) = fix_mobile x) ∧
    (∀ s, fmtDate (fmtDate s) = fmtDate s) :=
  ⟨pteSub_pteSub, normalize_pr_idem, clean_gender_idem, cleanIdType_idem,
    cleanNationality_idem, cleanVehicle_idem, pyTitle_pyTitle,
    lastChars_lastChars 4, fix_mobile_idem, fmtDate_idem⟩

